import Mathlib

/-!
Verification of the SPDY header-block codec (GzipHeaderCodec.cpp) against its
specification.  The byte-level canonicalizer (encode), the Name/Value parser
(parseNameValues) and the decode control loop are embedded shallowly; the zlib
DEFLATE/INFLATE library is external to the repository and is abstracted as an
event trace (for decode) or as a lossless transport (for round trips).
-/

namespace GzipCodec

/-- Byte strings as lists of naturals (each byte < 256 in well-formed data). -/
abbrev Bytes := List Nat

/-- A header pair: classification code plus name and value byte strings.
Modelled from the spec: the `Header` struct (compress/Header.h is not in the
sources); the spec's data model says a pair "carries an internal classification
code used to fast-compare common header names". -/
structure Header where
  code : Nat
  name : Bytes
  value : Bytes
deriving DecidableEq

/-- Modelled from the spec: HTTP_HEADER_OTHER, the classification code the
encoder walk starts from (HTTPCommonHeaders is not in the sources).  Its
concrete numeric value is immaterial to the codec. -/
def HTTP_HEADER_OTHER : Nat := 1

/-- folly::toLowerAscii on one byte: ASCII A-Z become a-z, others unchanged. -/
def lowerByte (b : Nat) : Nat := if 65 ≤ b ∧ b ≤ 90 then b + 32 else b

/-- folly::toLowerAscii over a byte string. -/
def lowerBytes (bs : Bytes) : Bytes := bs.map lowerByte

/-- Modelled from the spec: `appendSizeFun`, the big-endian width-`w` wire
integer writer ("Wire-integer read/write helpers are parameterized by this
width and are big-endian"; width 2 for SPDY/2, 4 for SPDY/3.x).  The value is
truncated to `w` bytes as the fixed-width machine write does. -/
def beBytes (w : Nat) (n : Nat) : Bytes :=
  match w with
  | 0 => []
  | w + 1 => (n / 256 ^ w) % 256 :: beBytes w n

/-- Modelled from the spec: `parseSizeFun`, the big-endian width-`w` wire
integer reader; `none` when fewer than `w` bytes remain (the cursor throws). -/
def readBE (w : Nat) (bs : Bytes) : Option (Nat × Bytes) :=
  match w with
  | 0 => some (0, bs)
  | w + 1 =>
    match bs with
    | [] => none
    | b :: rest =>
      match readBE w rest with
      | none => none
      | some (v, r) => some (b * 256 ^ w + v, r)

/-- Overwrite `seg.length` bytes of `l` starting at index `i` (the encoder's
rewrite of the remembered value-length field through `lastValueLenPtr`). -/
def spliceAt (l : Bytes) (i : Nat) (seg : Bytes) : Bytes :=
  l.take i ++ seg ++ l.drop (i + seg.length)

/-- The encoder-walk state of GzipHeaderCodec::encode: the serialized bytes
after the reserved count field, the previously emitted (code, name), the
position and current value of the remembered value-length field, and the
unique-name count. -/
@[ext]
structure EncState where
  buf : Bytes
  lastCode : Nat
  lastName : Bytes
  lastValueLenPtr : Nat
  lastValueLen : Nat
  numHeaders : Nat
deriving DecidableEq

/-- Initial encoder-walk state: `lastCode = HTTP_HEADER_OTHER`,
`lastName = empty_string`. -/
def encInit : EncState :=
  { buf := [], lastCode := HTTP_HEADER_OTHER, lastName := [],
    lastValueLenPtr := 0, lastValueLen := 0, numHeaders := 0 }

/-- One iteration of the encoder walk over the sorted header list.  A header
whose (code, name) differs from the previous one opens a new wire entry with
its name lowercased in place; otherwise a NUL byte and the new value are
appended and the remembered value-length field is rewritten. -/
def encStep (w : Nat) (st : EncState) (h : Header) : EncState :=
  if h.code ≠ st.lastCode ∨ h.name ≠ st.lastName then
    { buf := st.buf ++ beBytes w h.name.length ++ lowerBytes h.name
               ++ beBytes w h.value.length ++ h.value,
      lastCode := h.code,
      lastName := h.name,
      lastValueLenPtr := st.buf.length + w + h.name.length,
      lastValueLen := h.value.length,
      numHeaders := st.numHeaders + 1 }
  else
    { st with
      buf := spliceAt (st.buf ++ 0 :: h.value) st.lastValueLenPtr
               (beBytes w (st.lastValueLen + 1 + h.value.length)),
      lastValueLen := st.lastValueLen + 1 + h.value.length }

/-- The serialized uncompressed image GzipHeaderCodec::encode hands to
DEFLATE: the unique-name count (width `w`) followed by the walked entries.
The input is expected to be the (sorted) header list after std::sort. -/
def serializeHeaders (w : Nat) (hs : List Header) : Bytes :=
  beBytes w (hs.foldl (encStep w) encInit).numHeaders
    ++ (hs.foldl (encStep w) encInit).buf

/-- Lexicographic byte-string comparison (std::string operator<). -/
def bytesLtB : Bytes → Bytes → Bool
  | [], [] => false
  | [], _ :: _ => true
  | _ :: _, [] => false
  | a :: as, b :: bs => if a < b then true else if b < a then false else bytesLtB as bs

/-- Header::operator< — modelled from the spec: "Sort the list by
(classification code, name bytes)" (compress/Header.h is not in the sources). -/
def headerLtB (a b : Header) : Bool :=
  if a.code < b.code then true
  else if a.code = b.code then bytesLtB a.name b.name
  else false

/-- The postcondition of std::sort (a non-stable sort): the list the caller
owns after encode returns is some permutation of its input that is sorted with
respect to Header::operator<.  Any such permutation is a possible outcome. -/
def sortSpec (input output : List Header) : Prop :=
  output.Perm input ∧ output.Pairwise (fun a b => headerLtB b a = false)

instance (l l' : List Header) : Decidable (sortSpec l l') := by
  unfold sortSpec; infer_instance

/-! ### Wire entries: the grouped view of the serialized image -/

/-- One entry of the SPDY Name/Value block: a name together with the run of
values merged into it. -/
structure WireEntry where
  code : Nat
  name : Bytes
  values : List Bytes
deriving DecidableEq

/-- Values of one run joined with single NUL separators. -/
def joinVals : List Bytes → Bytes
  | [] => []
  | [v] => v
  | v :: rest => v ++ 0 :: joinVals rest

/-- Group the tail of a header list into runs of adjacent equal (code, name),
continuing a run opened by `(code, name, vals)`. -/
def mergeGo (code : Nat) (name : Bytes) (vals : List Bytes) :
    List Header → List WireEntry
  | [] => [⟨code, name, vals⟩]
  | h :: t =>
    if h.code = code ∧ h.name = name then
      mergeGo code name (vals ++ [h.value]) t
    else
      ⟨code, name, vals⟩ :: mergeGo h.code h.name [h.value] t

/-- Group a header list into runs of adjacent equal (code, name). -/
def mergeAdj : List Header → List WireEntry
  | [] => []
  | h :: t => mergeGo h.code h.name [h.value] t

/-- The wire bytes of one entry: name length, lowercased name, joined-value
length, joined values. -/
def entryBytes (w : Nat) (e : WireEntry) : Bytes :=
  beBytes w e.name.length ++ lowerBytes e.name
    ++ beBytes w (joinVals e.values).length ++ joinVals e.values

/-- The wire bytes of a list of entries. -/
def entriesBytes (w : Nat) : List WireEntry → Bytes
  | [] => []
  | e :: es => entryBytes w e ++ entriesBytes w es

/-! ### The Name/Value parser -/

/-- The decode-side error taxonomy of HeaderCodec. -/
inductive HeaderDecodeError where
  | INFLATE_DICTIONARY
  | BAD_ENCODING
  | HEADERS_TOO_LARGE
  | EMPTY_HEADER_NAME
  | EMPTY_HEADER_VALUE
  | INVALID_HEADER_VALUE
deriving DecidableEq

/-- A decoded header piece: its bytes, whether it owns its storage, and
whether it was produced by expanding a NUL-separated combined value.
Modelled from the spec: compress::HeaderPiece (not in the sources); its
constructor arguments in GzipHeaderCodec.cpp are (data, len, owned,
multiValued), and `str.reset` changes only the byte range, not the flags. -/
structure HeaderPiece where
  str : Bytes
  owned : Bool
  multiValued : Bool
deriving DecidableEq

/-- Result of GzipHeaderCodec::parseNameValues: the piece list together with
the expanded-bytes counter, an error return, or a cursor out-of-range throw
(caught by decode and turned into BAD_ENCODING). -/
inductive ParseOut where
  | ok (pieces : List HeaderPiece) (expanded : Nat)
  | err (e : HeaderDecodeError)
  | outOfRange
deriving DecidableEq

/-- A byte read back as the C++ (signed) `char` the name-validation loop
iterates over. -/
def charOf (b : Nat) : Int := if b < 128 then (b : Int) else (b : Int) - 256

/-- The name-validation test of parseNameValues, byte by byte:
`c < 0x20 || c > 0x7e || ('A' <= c && c <= 'Z')` over the signed char. -/
def badNameByte (b : Nat) : Bool :=
  decide (charOf b < 32 ∨ 126 < charOf b ∨ (65 ≤ charOf b ∧ charOf b ≤ 90))

/-- Split a value at each NUL byte; the list of segments (the walk of
parseNameValues over `valueStart`/`pos`). -/
def splitNul : Bytes → List Bytes
  | [] => [[]]
  | b :: t =>
    if b = 0 then [] :: splitNul t
    else
      match splitNul t with
      | [] => [[b]]
      | s :: rest => (b :: s) :: rest

/-- The value-slot processing of parseNameValues: if the value contains no NUL
it is kept as a single piece (flags unchanged, i.e. not multi-valued); if it
contains NULs, any empty segment is EMPTY_HEADER_VALUE, the first segment
replaces the value piece in place (flags unchanged), and every later segment
appends a name piece and a value piece both marked multi-valued, accumulating
name+segment lengths into the expanded-bytes counter. -/
def processValue (nm : Bytes) (v : Bytes) :
    HeaderDecodeError ⊕ (List HeaderPiece × Nat) :=
  if 0 ∈ v then
    if (splitNul v).any List.isEmpty then Sum.inl .EMPTY_HEADER_VALUE
    else
      match splitNul v with
      | [] => Sum.inl .EMPTY_HEADER_VALUE
      | s :: rest =>
        Sum.inr (⟨s, false, false⟩ ::
            (rest.map fun t => [⟨nm, false, true⟩, ⟨t, false, true⟩]).flatten,
          (rest.map fun t => nm.length + t.length).sum)
  else Sum.inr ([⟨v, false, false⟩], 0)

/-- The loop of parseNameValues, recursing on the remaining iteration count.
`hdrName` is the source's `headerName` pointer: `none` exactly at name slots
(the source keys the slot kind on `i % 2 == 0`; `headerName` is null exactly
on name slots and set exactly on value slots, so the model keys both the
`len == 0 && !headerName` check and the slot kind on `hdrName`). -/
def parseLoop (w : Nat) : Nat → Bytes → Option Bytes → List HeaderPiece → Nat → ParseOut
  | 0, _, _, acc, exp => .ok acc exp
  | k + 1, bs, hdrName, acc, exp =>
    match readBE w bs with
    | none => .outOfRange
    | some (len, bs₁) =>
      if len = 0 ∧ hdrName = none then .err .EMPTY_HEADER_NAME
      else if bs₁.length < len then .outOfRange
      else
        match hdrName with
        | none =>
          if (bs₁.take len).any badNameByte then .err .INVALID_HEADER_VALUE
          else parseLoop w k (bs₁.drop len) (some (bs₁.take len))
              (acc ++ [⟨bs₁.take len, false, false⟩]) exp
        | some nm =>
          match processValue nm (bs₁.take len) with
          | Sum.inl e => .err e
          | Sum.inr (ps, e') =>
            parseLoop w k (bs₁.drop len) none (acc ++ ps) (exp + e')

/-- GzipHeaderCodec::parseNameValues: read the unique-name count, then walk
`numNV * 2` slots — the loop bound is computed in 32-bit unsigned arithmetic
(`uint32_t i` against `numNV * 2`), hence the `% 2 ^ 32`. -/
def parseNameValues (w : Nat) (bs : Bytes) : ParseOut :=
  match readBE w bs with
  | none => .outOfRange
  | some (numNV, bs₁) => parseLoop w ((numNV * 2) % 2 ^ 32) bs₁ none [] 0

/-- Pair consecutive pieces back into (name, value) byte-string pairs. -/
def piecePairs : List HeaderPiece → List (Bytes × Bytes)
  | a :: b :: t => (a.str, b.str) :: piecePairs t
  | _ => []

/-! ### The decode control loop over an abstract INFLATE trace -/

/-- One observable step of the zlib inflate loop in GzipHeaderCodec::decode.
zlib is external to the repository; each event is one `inflate` return:
either Z_OK with the bytes written to the scratch tail, Z_NEED_DICT together
with whether the subsequent `inflateSetDictionary` succeeds, or any other
nonzero return. -/
inductive InflateEvent where
  | produce (bs : Bytes)
  | needDict (ok : Bool)
  | fail
deriving DecidableEq

/-- Outcome of the decompression loop: the scratch image or an error. -/
inductive InflRes where
  | ok (scratch : Bytes)
  | err (e : HeaderDecodeError)
deriving DecidableEq

/-- The decompression loop of GzipHeaderCodec::decode: each Z_OK append is
followed by the check `uncompressed.length() > maxUncompressed_` (return
HEADERS_TOO_LARGE); a failed dictionary install returns INFLATE_DICTIONARY;
any other nonzero inflate return is BAD_ENCODING. -/
def runInflate (cap : Nat) (scratch : Bytes) : List InflateEvent → InflRes
  | [] => .ok scratch
  | .produce bs :: rest =>
    if cap < (scratch ++ bs).length then .err .HEADERS_TOO_LARGE
    else runInflate cap (scratch ++ bs) rest
  | .needDict true :: rest => runInflate cap scratch rest
  | .needDict false :: _ => .err .INFLATE_DICTIONARY
  | .fail :: _ => .err .BAD_ENCODING

/-- Maximum size of header names+values after expanding multi-value headers. -/
def kMaxExpandedHeaderLineBytes : Nat := 80 * 1024

/-- The value decode returns to its caller. -/
inductive DecodeRes where
  | ok (pieces : List HeaderPiece)
  | err (e : HeaderDecodeError)
deriving DecidableEq

/-- GzipHeaderCodec::decode with a stats sink configured, over an abstract
inflate trace; the Bool records whether `stats_->recordDecode` ran.  The empty
block returns early; after a successful decompression loop the stats sink is
invoked (source order: before parseNameValues); a parse out-of-range throw is
caught as BAD_ENCODING; finally the expanded-bytes counter is checked against
the fixed 80 KiB ceiling. -/
def decode (w cap len : Nat) (events : List InflateEvent) : DecodeRes × Bool :=
  if len = 0 then (.ok [], false)
  else
    match runInflate cap [] events with
    | .err e => (.err e, false)
    | .ok scratch =>
      match parseNameValues w scratch with
      | .outOfRange => (.err .BAD_ENCODING, true)
      | .err e => (.err e, true)
      | .ok pieces expanded =>
        if kMaxExpandedHeaderLineBytes < expanded then (.err .HEADERS_TOO_LARGE, true)
        else (.ok pieces, true)

/-! ### The zlib template cache -/

/-- The deflate template the zlib context cache builds for a (version, level)
key: the deflateInit2 parameters and the dictionary installed on the stream,
if any. -/
structure DeflateTemplate where
  windowBits : Nat
  memLevel : Nat
  strategy : Nat
  dictionary : Option Bytes
deriving DecidableEq

/-- zlib's Z_NO_COMPRESSION. -/
def Z_NO_COMPRESSION : Int := 0

/-- zlib's Z_DEFAULT_STRATEGY. -/
def Z_DEFAULT_STRATEGY : Nat := 0

/-- The deflate template GzipHeaderCodec::getZlibContext builds on the first
request for a key: windowBits 8 for Z_NO_COMPRESSION else 11, memory level 1,
default strategy; deflateSetDictionary is called only when the level is not
Z_NO_COMPRESSION. -/
def buildDeflateTemplate (dict : Bytes) (compressionLevel : Int) : DeflateTemplate :=
  { windowBits := if compressionLevel = Z_NO_COMPRESSION then 8 else 11,
    memLevel := 1,
    strategy := Z_DEFAULT_STRATEGY,
    dictionary := if compressionLevel ≠ Z_NO_COMPRESSION then some dict else none }

/-- The per-thread template cache, keyed by (version, compression level). -/
abbrev ZlibCache := List ((Nat × Int) × DeflateTemplate)

/-- GzipHeaderCodec::getZlibContext: return the cached template for the key
when present, otherwise build one and store it.  `dictOf` gives the version's
preload dictionary. -/
def getZlibContext (dictOf : Nat → Bytes) (cache : ZlibCache)
    (version : Nat) (level : Int) : DeflateTemplate × ZlibCache :=
  match cache.lookup (version, level) with
  | some t => (t, cache)
  | none =>
    let t := buildDeflateTemplate (dictOf version) level
    (t, ((version, level), t) :: cache)

/-! ### Byte-level lemmas -/

theorem length_beBytes (w n : Nat) : (beBytes w n).length = w := by
  induction w with
  | zero => rfl
  | succ w ih => simp [beBytes, ih]

theorem length_lowerBytes (bs : Bytes) : (lowerBytes bs).length = bs.length :=
  List.length_map bs lowerByte

theorem readBE_beBytes (w n : Nat) (r : Bytes) :
    readBE w (beBytes w n ++ r) = some (n % 256 ^ w, r) := by
  induction w with
  | zero => simp [beBytes, readBE, Nat.mod_one]
  | succ w ih =>
    simp only [beBytes, List.cons_append, readBE, ih]
    have h256 : (256 : Nat) ^ (w + 1) = 256 ^ w * 256 := pow_succ 256 w
    rw [h256, Nat.mod_mul]
    ring_nf

theorem joinVals_cons_cons (a b : Bytes) (t : List Bytes) :
    joinVals (a :: b :: t) = a ++ 0 :: joinVals (b :: t) := rfl

theorem joinVals_append_single (vals : List Bytes) (v : Bytes) (h : vals ≠ []) :
    joinVals (vals ++ [v]) = joinVals vals ++ 0 :: v := by
  induction vals with
  | nil => exact absurd rfl h
  | cons a t ih =>
    cases t with
    | nil => simp [joinVals]
    | cons b t' =>
      have ih' : joinVals ((b :: t') ++ [v]) = joinVals (b :: t') ++ 0 :: v :=
        ih (by simp)
      have e1 : (a :: b :: t') ++ [v] = a :: ((b :: t') ++ [v]) := by simp
      rw [e1]
      have e2 : (b :: t') ++ [v] = b :: (t' ++ [v]) := by simp
      rw [e2] at ih' ⊢
      rw [joinVals_cons_cons a b (t' ++ [v]), ih', joinVals_cons_cons a b t']
      simp

theorem entriesBytes_append (w : Nat) (a b : List WireEntry) :
    entriesBytes w (a ++ b) = entriesBytes w a ++ entriesBytes w b := by
  induction a with
  | nil => simp [entriesBytes]
  | cons e t ih => simp [entriesBytes, ih]

/-! ### The serializer produces exactly the grouped wire image -/

/-- The encoder-walk state reached after emitting the entries `done` followed
by the currently open run `(code, name, vals)` (proof abbreviation). -/
def encSt (w : Nat) (done : List WireEntry) (code : Nat) (name : Bytes)
    (vals : List Bytes) : EncState :=
  { buf := entriesBytes w done ++ entryBytes w ⟨code, name, vals⟩,
    lastCode := code, lastName := name,
    lastValueLenPtr := (entriesBytes w done).length + w + name.length,
    lastValueLen := (joinVals vals).length,
    numHeaders := done.length + 1 }

theorem encStep_merge (w : Nat) (done : List WireEntry) (code : Nat)
    (name : Bytes) (vals : List Bytes) (h : Header)
    (hc : h.code = code) (hn : h.name = name) (hvals : vals ≠ []) :
    encStep w (encSt w done code name vals) h
      = encSt w done code name (vals ++ [h.value]) := by
  have hjoin := joinVals_append_single vals h.value hvals
  have hcond : ¬(h.code ≠ (encSt w done code name vals).lastCode
      ∨ h.name ≠ (encSt w done code name vals).lastName) := by
    simp [encSt, hc, hn]
  unfold encStep
  rw [if_neg hcond]
  have hbuf : spliceAt ((encSt w done code name vals).buf ++ 0 :: h.value)
      (encSt w done code name vals).lastValueLenPtr
      (beBytes w ((encSt w done code name vals).lastValueLen + 1 + h.value.length))
      = (encSt w done code name (vals ++ [h.value])).buf := by
    unfold encSt spliceAt entryBytes
    simp only []
    have hA : (entriesBytes w done ++ (beBytes w name.length ++ lowerBytes name)).length
        = (entriesBytes w done).length + w + name.length := by
      simp [length_beBytes, length_lowerBytes]
      omega
    have hre1 :
        (entriesBytes w done ++ (beBytes w name.length ++ lowerBytes name
            ++ beBytes w (joinVals vals).length ++ joinVals vals)) ++ 0 :: h.value
        = (entriesBytes w done ++ (beBytes w name.length ++ lowerBytes name))
            ++ (beBytes w (joinVals vals).length ++ (joinVals vals ++ 0 :: h.value)) := by
      simp
    rw [hre1, List.take_left' hA]
    have hAB : ((entriesBytes w done ++ (beBytes w name.length ++ lowerBytes name))
          ++ beBytes w (joinVals vals).length).length
        = (entriesBytes w done).length + w + name.length
            + (beBytes w ((joinVals vals).length + 1 + h.value.length)).length := by
      simp [length_beBytes, length_lowerBytes]
      omega
    have hre2 :
        (entriesBytes w done ++ (beBytes w name.length ++ lowerBytes name))
            ++ (beBytes w (joinVals vals).length ++ (joinVals vals ++ 0 :: h.value))
        = (((entriesBytes w done ++ (beBytes w name.length ++ lowerBytes name))
            ++ beBytes w (joinVals vals).length) ++ (joinVals vals ++ 0 :: h.value)) := by
      simp
    rw [hre2, List.drop_left' hAB]
    rw [hjoin]
    have hlen2 : (joinVals vals ++ 0 :: h.value).length
        = (joinVals vals).length + 1 + h.value.length := by
      simp
      omega
    rw [hlen2]
    simp
  rw [hbuf]
  refine EncState.ext ?_ ?_ ?_ ?_ ?_ ?_
  · rfl
  · simp [encSt, hc]
  · simp [encSt, hn]
  · rfl
  · simp [encSt, hjoin]
    omega
  · rfl

theorem encStep_new (w : Nat) (done : List WireEntry) (code : Nat)
    (name : Bytes) (vals : List Bytes) (h : Header)
    (hcond : h.code ≠ code ∨ h.name ≠ name) :
    encStep w (encSt w done code name vals) h
      = encSt w (done ++ [⟨code, name, vals⟩]) h.code h.name [h.value] := by
  have hcond' : h.code ≠ (encSt w done code name vals).lastCode
      ∨ h.name ≠ (encSt w done code name vals).lastName := by
    simpa [encSt] using hcond
  unfold encStep
  rw [if_pos hcond']
  refine EncState.ext ?_ ?_ ?_ ?_ ?_ ?_
  · simp [encSt, entriesBytes_append, entriesBytes, entryBytes, joinVals]
  · simp [encSt]
  · simp [encSt]
  · simp [encSt, entriesBytes_append, entriesBytes, entryBytes,
      length_beBytes, length_lowerBytes]
  · simp [encSt, joinVals]
  · simp [encSt]

theorem encGo_entries (w : Nat) (t : List Header) :
    ∀ (done : List WireEntry) (code : Nat) (name : Bytes) (vals : List Bytes),
      vals ≠ [] →
      (t.foldl (encStep w) (encSt w done code name vals)).buf
          = entriesBytes w (done ++ mergeGo code name vals t)
        ∧ (t.foldl (encStep w) (encSt w done code name vals)).numHeaders
          = (done ++ mergeGo code name vals t).length := by
  induction t with
  | nil =>
    intro done code name vals _
    simp [mergeGo, entriesBytes_append, entriesBytes, encSt]
  | cons h t ih =>
    intro done code name vals hvals
    by_cases hmatch : h.code = code ∧ h.name = name
    · obtain ⟨hc, hn⟩ := hmatch
      rw [List.foldl_cons, encStep_merge w done code name vals h hc hn hvals]
      have hrec := ih done code name (vals ++ [h.value]) (by simp)
      have hmg : mergeGo code name vals (h :: t)
          = mergeGo code name (vals ++ [h.value]) t := by
        simp [mergeGo, hc, hn]
      rw [hmg]
      exact hrec
    · have hcond : h.code ≠ code ∨ h.name ≠ name := by
        by_contra hcontra
        push_neg at hcontra
        exact hmatch ⟨hcontra.1, hcontra.2⟩
      rw [List.foldl_cons, encStep_new w done code name vals h hcond]
      have hrec := ih (done ++ [⟨code, name, vals⟩]) h.code h.name [h.value] (by simp)
      have hmg : mergeGo code name vals (h :: t)
          = ⟨code, name, vals⟩ :: mergeGo h.code h.name [h.value] t := by
        simp [mergeGo, hmatch]
      rw [hmg]
      constructor
      · rw [hrec.1]
        simp
      · rw [hrec.2]
        simp

theorem serialize_entries (w : Nat) (hs : List Header)
    (hnames : ∀ h ∈ hs, h.name ≠ []) :
    serializeHeaders w hs
      = beBytes w (mergeAdj hs).length ++ entriesBytes w (mergeAdj hs) := by
  cases hs with
  | nil => simp [serializeHeaders, mergeAdj, entriesBytes, encInit]
  | cons h t =>
    have hname : h.name ≠ [] := hnames h (List.mem_cons_self h t)
    have hstep : encStep w encInit h = encSt w [] h.code h.name [h.value] := by
      have hcond : h.code ≠ encInit.lastCode ∨ h.name ≠ encInit.lastName := by
        right
        simpa [encInit] using hname
      unfold encStep
      rw [if_pos hcond]
      unfold encSt encInit
      simp [entriesBytes, entryBytes, joinVals]
    have hrec := encGo_entries w t [] h.code h.name [h.value] (by simp)
    unfold serializeHeaders
    rw [List.foldl_cons, hstep, hrec.1, hrec.2]
    simp [mergeAdj]

/-! ### What the parser returns on a well-formed wire image -/

/-- The pieces the parser emits for one wire entry: the (lowercased) name and
the first value unflagged, every later value preceded by a duplicated name
piece, both flagged multi-valued. -/
def entryPieces (e : WireEntry) : List HeaderPiece :=
  ⟨lowerBytes e.name, false, false⟩ ::
    match e.values with
    | [] => []
    | v :: rest =>
      ⟨v, false, false⟩ ::
        (rest.map fun s =>
          [⟨lowerBytes e.name, false, true⟩, ⟨s, false, true⟩]).flatten

/-- The expanded-bytes contribution of one wire entry: name+segment lengths of
every value after the first. -/
def entryExpanded (e : WireEntry) : Nat :=
  ((e.values.drop 1).map fun s => (lowerBytes e.name).length + s.length).sum

/-- The full piece list the parser emits for a list of wire entries. -/
def wireExpand : List WireEntry → List HeaderPiece
  | [] => []
  | e :: es => entryPieces e ++ wireExpand es

/-- The full expanded-bytes counter for a list of wire entries. -/
def expandedSum : List WireEntry → Nat
  | [] => 0
  | e :: es => entryExpanded e + expandedSum es

/-! ### splitNul and processValue lemmas -/

theorem splitNul_no_nul (v : Bytes) (h : 0 ∉ v) : splitNul v = [v] := by
  induction v with
  | nil => rfl
  | cons b t ih =>
    have hb : b ≠ 0 := fun hb => h (by simp [hb])
    have ht : 0 ∉ t := fun ht => h (by simp [ht])
    simp [splitNul, hb, ih ht]

theorem splitNul_cons_ne (x : Nat) (t : Bytes) (hx : x ≠ 0) :
    splitNul (x :: t)
      = match splitNul t with
        | [] => [[x]]
        | s :: rest => (x :: s) :: rest := by
  simp only [splitNul, if_neg hx]

theorem splitNul_append (a b : Bytes) (h : 0 ∉ a) :
    splitNul (a ++ 0 :: b) = a :: splitNul b := by
  induction a with
  | nil => simp [splitNul]
  | cons x t ih =>
    have hx : x ≠ 0 := fun hx => h (by simp [hx])
    have ht : 0 ∉ t := fun ht => h (by simp [ht])
    have ihh := ih ht
    rw [List.cons_append, splitNul_cons_ne x (t ++ 0 :: b) hx, ihh]

theorem splitNul_ne_nil (v : Bytes) : splitNul v ≠ [] := by
  induction v with
  | nil => simp [splitNul]
  | cons b t ih =>
    by_cases hb : b = 0
    · simp [splitNul, hb]
    · simp only [splitNul, if_neg hb]
      cases hsp : splitNul t with
      | nil => simp
      | cons s rest => simp

theorem splitNul_joinVals (vals : List Bytes) (hne : vals ≠ [])
    (hv : ∀ v ∈ vals, 0 ∉ v) :
    splitNul (joinVals vals) = vals := by
  induction vals with
  | nil => exact absurd rfl hne
  | cons v t ih =>
    cases t with
    | nil => exact splitNul_no_nul v (hv v (by simp))
    | cons b t' =>
      rw [joinVals_cons_cons]
      rw [splitNul_append v (joinVals (b :: t')) (hv v (by simp))]
      rw [ih (by simp) (fun x hx => hv x (List.mem_cons_of_mem v hx))]

theorem processValue_single (nm v : Bytes) (h : 0 ∉ v) :
    processValue nm v = Sum.inr ([⟨v, false, false⟩], 0) := by
  simp [processValue, h]

theorem processValue_multi (nm v : Bytes) (rest : List Bytes) (hrest : rest ≠ [])
    (hv : ∀ x ∈ v :: rest, x ≠ [] ∧ 0 ∉ x) :
    processValue nm (joinVals (v :: rest))
      = Sum.inr (⟨v, false, false⟩ ::
          (rest.map fun s => [⟨nm, false, true⟩, ⟨s, false, true⟩]).flatten,
        (rest.map fun s => nm.length + s.length).sum) := by
  have hmem : (0 : Nat) ∈ joinVals (v :: rest) := by
    cases rest with
    | nil => exact absurd rfl hrest
    | cons b t' =>
      rw [joinVals_cons_cons]
      simp
  have hsplit : splitNul (joinVals (v :: rest)) = v :: rest :=
    splitNul_joinVals (v :: rest) (by simp) (fun x hx => (hv x hx).2)
  have hnoempty : (splitNul (joinVals (v :: rest))).any List.isEmpty = false := by
    rw [hsplit]
    simp only [List.any_eq_false]
    intro x hx
    have := (hv x hx).1
    simpa [List.isEmpty_iff] using this
  unfold processValue
  rw [if_pos hmem, hnoempty, hsplit]
  simp

/-! ### Name validation lemmas -/

theorem badNameByte_eq_false (b : Nat) (h1 : 32 ≤ b) (h2 : b ≤ 126)
    (h3 : ¬(65 ≤ b ∧ b ≤ 90)) : badNameByte b = false := by
  have hc : charOf b = (b : Int) := if_pos (by omega)
  simp only [badNameByte, hc, decide_eq_false_iff_not]
  omega

theorem badNameByte_iff (b : Nat) (hb : b < 256) :
    badNameByte b = true ↔ (b < 32 ∨ 126 < b ∨ (65 ≤ b ∧ b ≤ 90)) := by
  by_cases hsmall : b < 128
  · have hc : charOf b = (b : Int) := if_pos hsmall
    simp only [badNameByte, hc, decide_eq_true_eq]
    omega
  · have hc : charOf b = (b : Int) - 256 := if_neg hsmall
    simp only [badNameByte, hc, decide_eq_true_eq]
    omega

theorem lowerBytes_eq_self (nm : Bytes) (h : ∀ b ∈ nm, ¬(65 ≤ b ∧ b ≤ 90)) :
    lowerBytes nm = nm := by
  induction nm with
  | nil => rfl
  | cons b t ih =>
    have hb : lowerByte b = b := if_neg (h b (by simp))
    have ht := ih (fun x hx => h x (List.mem_cons_of_mem b hx))
    simp only [lowerBytes, List.map_cons] at ht ⊢
    rw [hb, ht]

/-! ### Parse loop step lemmas -/

theorem parseLoop_name_step (w k : Nat) (nm rest : Bytes)
    (acc : List HeaderPiece) (exp : Nat)
    (hlen : nm.length < 256 ^ w) (hne : nm ≠ [])
    (hvalid : nm.any badNameByte = false) :
    parseLoop w (k + 1) (beBytes w nm.length ++ (nm ++ rest)) none acc exp
      = parseLoop w k rest (some nm) (acc ++ [⟨nm, false, false⟩]) exp := by
  have hread := readBE_beBytes w nm.length (nm ++ rest)
  have hmod : nm.length % 256 ^ w = nm.length := Nat.mod_eq_of_lt hlen
  rw [hmod] at hread
  have hnz : nm.length ≠ 0 := by
    intro hcontra
    exact hne (List.eq_nil_of_length_eq_zero hcontra)
  have hfit : ¬((nm ++ rest).length < nm.length) := by
    simp only [List.length_append]
    omega
  have htake : (nm ++ rest).take nm.length = nm := List.take_left' rfl
  have hdrop : (nm ++ rest).drop nm.length = rest := List.drop_left' rfl
  simp [parseLoop, hread, hnz, hfit, htake, hdrop, hvalid]

theorem parseLoop_value_err (w k : Nat) (nm v rest : Bytes)
    (acc : List HeaderPiece) (exp : Nat) (e : HeaderDecodeError)
    (hlen : v.length < 256 ^ w) (hp : processValue nm v = Sum.inl e) :
    parseLoop w (k + 1) (beBytes w v.length ++ (v ++ rest)) (some nm) acc exp
      = .err e := by
  have hread := readBE_beBytes w v.length (v ++ rest)
  have hmod : v.length % 256 ^ w = v.length := Nat.mod_eq_of_lt hlen
  rw [hmod] at hread
  have hfit : ¬((v ++ rest).length < v.length) := by
    simp only [List.length_append]
    omega
  have htake : (v ++ rest).take v.length = v := List.take_left' rfl
  have hdrop : (v ++ rest).drop v.length = rest := List.drop_left' rfl
  simp [parseLoop, hread, hfit, htake, hdrop, hp]

theorem parseLoop_value_ok (w k : Nat) (nm v rest : Bytes)
    (acc : List HeaderPiece) (exp : Nat) (ps : List HeaderPiece) (e' : Nat)
    (hlen : v.length < 256 ^ w) (hp : processValue nm v = Sum.inr (ps, e')) :
    parseLoop w (k + 1) (beBytes w v.length ++ (v ++ rest)) (some nm) acc exp
      = parseLoop w k rest none (acc ++ ps) (exp + e') := by
  have hread := readBE_beBytes w v.length (v ++ rest)
  have hmod : v.length % 256 ^ w = v.length := Nat.mod_eq_of_lt hlen
  rw [hmod] at hread
  have hfit : ¬((v ++ rest).length < v.length) := by
    simp only [List.length_append]
    omega
  have htake : (v ++ rest).take v.length = v := List.take_left' rfl
  have hdrop : (v ++ rest).drop v.length = rest := List.drop_left' rfl
  simp [parseLoop, hread, hfit, htake, hdrop, hp]

/-- The per-entry hypotheses under which the parser consumes a wire entry. -/
def WF (w : Nat) (e : WireEntry) : Prop :=
  e.name ≠ []
    ∧ (lowerBytes e.name).any badNameByte = false
    ∧ e.name.length < 256 ^ w
    ∧ (joinVals e.values).length < 256 ^ w
    ∧ e.values ≠ []
    ∧ (∀ v ∈ e.values, v ≠ [] ∧ 0 ∉ v)

theorem parseLoop_entries (w : Nat) (es : List WireEntry) :
    ∀ (acc : List HeaderPiece) (exp : Nat), (∀ e ∈ es, WF w e) →
      parseLoop w (2 * es.length) (entriesBytes w es) none acc exp
        = .ok (acc ++ wireExpand es) (exp + expandedSum es) := by
  induction es with
  | nil =>
    intro acc exp _
    simp [entriesBytes, wireExpand, expandedSum, parseLoop]
  | cons e es ih =>
    intro acc exp hwf
    obtain ⟨hne, hvalid, hnlen, hjlen, hvne, hvs⟩ := hwf e (by simp)
    have harith : 2 * (e :: es).length = (2 * es.length + 1) + 1 := by
      simp [List.length_cons]
      ring
    rw [harith]
    have hshape : entriesBytes w (e :: es)
        = beBytes w (lowerBytes e.name).length
            ++ (lowerBytes e.name
              ++ (beBytes w (joinVals e.values).length
                ++ (joinVals e.values ++ entriesBytes w es))) := by
      simp [entriesBytes, entryBytes, length_lowerBytes]
    rw [hshape]
    rw [parseLoop_name_step w (2 * es.length + 1) (lowerBytes e.name) _ acc exp
      (by rw [length_lowerBytes]; exact hnlen)
      (by simpa [lowerBytes] using hne) hvalid]
    cases hv : e.values with
    | nil => exact absurd hv hvne
    | cons v vrest =>
      rw [hv] at hjlen hvs
      cases vrest with
      | nil =>
        have hproc : processValue (lowerBytes e.name) (joinVals [v])
            = Sum.inr ([⟨v, false, false⟩], 0) := by
          have hj : joinVals [v] = v := rfl
          rw [hj]
          exact processValue_single _ v (hvs v (by simp)).2
        rw [parseLoop_value_ok w (2 * es.length) (lowerBytes e.name)
          (joinVals [v]) _ _ _ _ _ hjlen hproc]
        rw [ih _ _ (fun x hx => hwf x (List.mem_cons_of_mem e hx))]
        simp [wireExpand, expandedSum, entryPieces, entryExpanded, hv]
      | cons v2 vrest2 =>
        have hproc : processValue (lowerBytes e.name) (joinVals (v :: v2 :: vrest2))
            = Sum.inr (⟨v, false, false⟩ ::
                ((v2 :: vrest2).map fun s =>
                  [⟨lowerBytes e.name, false, true⟩, ⟨s, false, true⟩]).flatten,
              ((v2 :: vrest2).map fun s =>
                (lowerBytes e.name).length + s.length).sum) :=
          processValue_multi (lowerBytes e.name) v (v2 :: vrest2) (by simp) hvs
        rw [parseLoop_value_ok w (2 * es.length) (lowerBytes e.name)
          (joinVals (v :: v2 :: vrest2)) _ _ _ _ _ hjlen hproc]
        rw [ih _ _ (fun x hx => hwf x (List.mem_cons_of_mem e hx))]
        simp [wireExpand, expandedSum, entryPieces, entryExpanded, hv,
          length_lowerBytes, Nat.add_assoc]

theorem parse_of_entries (w : Nat) (es : List WireEntry)
    (hcount : es.length < 256 ^ w) (hwrap : 2 * es.length < 2 ^ 32)
    (hes : ∀ e ∈ es, WF w e) :
    parseNameValues w (beBytes w es.length ++ entriesBytes w es)
      = .ok (wireExpand es) (expandedSum es) := by
  unfold parseNameValues
  rw [readBE_beBytes w es.length (entriesBytes w es)]
  have hmod : es.length % 256 ^ w = es.length := Nat.mod_eq_of_lt hcount
  rw [hmod]
  dsimp only
  have hb : es.length * 2 % 2 ^ 32 = 2 * es.length := by
    rw [Nat.mul_comm]
    exact Nat.mod_eq_of_lt hwrap
  rw [hb]
  have := parseLoop_entries w es [] 0 hes
  simpa using this

/-! ### mergeAdj membership and flattening -/

theorem mergeGo_sound (t : List Header) :
    ∀ (code : Nat) (name : Bytes) (vals : List Bytes), vals ≠ [] →
      ∀ e ∈ mergeGo code name vals t,
        ((e.name = name ∨ ∃ h ∈ t, h.name = e.name)
          ∧ e.values ≠ []
          ∧ (∀ v ∈ e.values, v ∈ vals ∨ ∃ h ∈ t, h.value = v)) := by
  induction t with
  | nil =>
    intro code name vals hvals e he
    simp only [mergeGo, List.mem_singleton] at he
    subst he
    exact ⟨Or.inl rfl, hvals, fun v hv => Or.inl hv⟩
  | cons h t ih =>
    intro code name vals hvals e he
    by_cases hmatch : h.code = code ∧ h.name = name
    · rw [mergeGo, if_pos hmatch] at he
      have hrec := ih code name (vals ++ [h.value]) (by simp) e he
      refine ⟨?_, hrec.2.1, ?_⟩
      · rcases hrec.1 with h1 | ⟨x, hx, hx2⟩
        · exact Or.inl h1
        · exact Or.inr ⟨x, List.mem_cons_of_mem h hx, hx2⟩
      · intro v hv
        rcases hrec.2.2 v hv with h1 | ⟨x, hx, hx2⟩
        · rcases List.mem_append.mp h1 with h2 | h2
          · exact Or.inl h2
          · exact Or.inr ⟨h, by simp, (List.mem_singleton.mp h2).symm⟩
        · exact Or.inr ⟨x, List.mem_cons_of_mem h hx, hx2⟩
    · rw [mergeGo, if_neg hmatch] at he
      rcases List.mem_cons.mp he with he1 | he1
      · subst he1
        exact ⟨Or.inl rfl, hvals, fun v hv => Or.inl hv⟩
      · have hrec := ih h.code h.name [h.value] (by simp) e he1
        refine ⟨?_, hrec.2.1, ?_⟩
        · rcases hrec.1 with h1 | ⟨x, hx, hx2⟩
          · exact Or.inr ⟨h, by simp, h1.symm⟩
          · exact Or.inr ⟨x, List.mem_cons_of_mem h hx, hx2⟩
        · intro v hv
          rcases hrec.2.2 v hv with h1 | ⟨x, hx, hx2⟩
          · exact Or.inr ⟨h, by simp, (List.mem_singleton.mp h1).symm⟩
          · exact Or.inr ⟨x, List.mem_cons_of_mem h hx, hx2⟩

theorem mergeAdj_sound (hs : List Header) :
    ∀ e ∈ mergeAdj hs,
      ((∃ h ∈ hs, h.name = e.name)
        ∧ e.values ≠ []
        ∧ (∀ v ∈ e.values, ∃ h ∈ hs, h.value = v)) := by
  cases hs with
  | nil =>
    intro e he
    simp [mergeAdj] at he
  | cons h t =>
    intro e he
    have hrec := mergeGo_sound t h.code h.name [h.value] (by simp) e he
    refine ⟨?_, hrec.2.1, ?_⟩
    · rcases hrec.1 with h1 | ⟨x, hx, hx2⟩
      · exact ⟨h, by simp, h1.symm⟩
      · exact ⟨x, List.mem_cons_of_mem h hx, hx2⟩
    · intro v hv
      rcases hrec.2.2 v hv with h1 | ⟨x, hx, hx2⟩
      · exact ⟨h, by simp, (List.mem_singleton.mp h1).symm⟩
      · exact ⟨x, List.mem_cons_of_mem h hx, hx2⟩

theorem mergeGo_flatten (t : List Header) :
    ∀ (code : Nat) (name : Bytes) (vals : List Bytes),
      (mergeGo code name vals t).flatMap (fun e => e.values.map fun v => (e.name, v))
        = vals.map (fun v => (name, v)) ++ t.map (fun h => (h.name, h.value)) := by
  induction t with
  | nil =>
    intro code name vals
    simp [mergeGo]
  | cons h t ih =>
    intro code name vals
    by_cases hmatch : h.code = code ∧ h.name = name
    · rw [mergeGo, if_pos hmatch, ih]
      simp [hmatch.2]
    · rw [mergeGo, if_neg hmatch]
      simp only [List.flatMap_cons, ih]
      simp

theorem mergeAdj_flatten (hs : List Header) :
    (mergeAdj hs).flatMap (fun e => e.values.map fun v => (e.name, v))
      = hs.map (fun h => (h.name, h.value)) := by
  cases hs with
  | nil => simp [mergeAdj]
  | cons h t =>
    rw [mergeAdj, mergeGo_flatten]
    simp

/-! ### piecePairs of the expanded output -/

theorem piecePairs_cons_cons (a b : HeaderPiece) (t : List HeaderPiece) :
    piecePairs (a :: b :: t) = (a.str, b.str) :: piecePairs t := rfl

theorem piecePairs_multi (nm : Bytes) (rest : List Bytes) (X : List HeaderPiece) :
    piecePairs ((rest.map fun s =>
        [⟨nm, false, true⟩, (⟨s, false, true⟩ : HeaderPiece)]).flatten ++ X)
      = rest.map (fun s => (nm, s)) ++ piecePairs X := by
  induction rest with
  | nil => simp
  | cons s r ih =>
    simp only [List.map_cons, List.flatten_cons, List.cons_append,
      List.append_assoc, List.nil_append]
    rw [piecePairs_cons_cons, ih]

theorem piecePairs_wireExpand (es : List WireEntry)
    (hv : ∀ e ∈ es, e.values ≠ []) :
    piecePairs (wireExpand es)
      = es.flatMap (fun e => e.values.map fun v => (lowerBytes e.name, v)) := by
  induction es with
  | nil => simp [wireExpand, piecePairs]
  | cons e es ih =>
    have hvne := hv e (by simp)
    cases hval : e.values with
    | nil => exact absurd hval hvne
    | cons v rest =>
      rw [wireExpand]
      have hep : entryPieces e
          = ⟨lowerBytes e.name, false, false⟩ :: ⟨v, false, false⟩ ::
              (rest.map fun s =>
                [⟨lowerBytes e.name, false, true⟩, ⟨s, false, true⟩]).flatten := by
        rw [entryPieces, hval]
      rw [hep]
      simp only [List.cons_append]
      rw [piecePairs_cons_cons]
      rw [piecePairs_multi]
      rw [ih (fun x hx => hv x (List.mem_cons_of_mem e hx))]
      simp [hval]

/-! ### Error classification of the parser -/

theorem processValue_err (nm v : Bytes) (e : HeaderDecodeError)
    (h : processValue nm v = Sum.inl e) : e = .EMPTY_HEADER_VALUE := by
  unfold processValue at h
  split at h
  · split at h
    · simp only [Sum.inl.injEq] at h
      exact h.symm
    · split at h
      · simp only [Sum.inl.injEq] at h
        exact h.symm
      · simp at h
  · simp at h

theorem parseLoop_err (w : Nat) : ∀ (k : Nat) (bs : Bytes) (hdr : Option Bytes)
    (acc : List HeaderPiece) (exp : Nat) (e : HeaderDecodeError),
    parseLoop w k bs hdr acc exp = .err e →
    e = .EMPTY_HEADER_NAME ∨ e = .EMPTY_HEADER_VALUE ∨ e = .INVALID_HEADER_VALUE := by
  intro k
  induction k with
  | zero =>
    intro bs hdr acc exp e h
    simp [parseLoop] at h
  | succ k ih =>
    intro bs hdr acc exp e h
    unfold parseLoop at h
    split at h
    · simp at h
    · split at h
      · simp only [ParseOut.err.injEq] at h
        exact Or.inl h.symm
      · split at h
        · simp at h
        · split at h
          · split at h
            · simp only [ParseOut.err.injEq] at h
              exact Or.inr (Or.inr h.symm)
            · exact ih _ _ _ _ _ h
          · split at h
            next e' heq =>
              simp only [ParseOut.err.injEq] at h
              subst h
              exact Or.inr (Or.inl (processValue_err _ _ _ heq))
            next ps e' heq =>
              exact ih _ _ _ _ _ h

theorem parseNameValues_err (w : Nat) (bs : Bytes) (e : HeaderDecodeError)
    (h : parseNameValues w bs = .err e) :
    e = .EMPTY_HEADER_NAME ∨ e = .EMPTY_HEADER_VALUE ∨ e = .INVALID_HEADER_VALUE := by
  unfold parseNameValues at h
  split at h
  · simp at h
  · exact parseLoop_err w _ _ _ _ _ _ h

/-! ### The decompression loop returns HEADERS_TOO_LARGE exactly at a cap excess -/

theorem runInflate_HTL_mpr (cap : Nat) : ∀ (p : List InflateEvent)
    (scratch : Bytes) (bs : Bytes) (r : List InflateEvent) (s : Bytes),
    runInflate cap scratch p = .ok s → cap < s.length + bs.length →
    runInflate cap scratch (p ++ .produce bs :: r) = .err .HEADERS_TOO_LARGE := by
  intro p
  induction p with
  | nil =>
    intro scratch bs r s hok hlt
    have hs : scratch = s := by
      simpa [runInflate] using hok
    subst hs
    have hcap : cap < (scratch ++ bs).length := by
      simp only [List.length_append]
      omega
    rw [List.nil_append]
    simp only [runInflate]
    rw [if_pos hcap]
  | cons ev p ih =>
    intro scratch bs r s hok hlt
    cases ev with
    | produce bs₀ =>
      by_cases hcap : cap < (scratch ++ bs₀).length
      · simp only [runInflate] at hok
        rw [if_pos hcap] at hok
        exact absurd hok (by simp)
      · simp only [runInflate] at hok
        rw [if_neg hcap] at hok
        rw [List.cons_append]
        simp only [runInflate]
        rw [if_neg hcap]
        exact ih (scratch ++ bs₀) bs r s hok hlt
    | needDict ok =>
      cases ok with
      | true =>
        simp only [runInflate] at hok
        rw [List.cons_append]
        simp only [runInflate]
        exact ih scratch bs r s hok hlt
      | false =>
        simp [runInflate] at hok
    | fail =>
      simp [runInflate] at hok

theorem runInflate_HTL_mp (cap : Nat) : ∀ (events : List InflateEvent)
    (scratch : Bytes),
    runInflate cap scratch events = .err .HEADERS_TOO_LARGE →
    ∃ p bs r s, events = p ++ .produce bs :: r
      ∧ runInflate cap scratch p = .ok s ∧ cap < s.length + bs.length := by
  intro events
  induction events with
  | nil =>
    intro scratch h
    simp [runInflate] at h
  | cons ev rest ih =>
    intro scratch h
    cases ev with
    | produce bs =>
      by_cases hcap : cap < (scratch ++ bs).length
      · refine ⟨[], bs, rest, scratch, rfl, by simp [runInflate], ?_⟩
        simpa using hcap
      · simp only [runInflate] at h
        rw [if_neg hcap] at h
        obtain ⟨p, bs', r, s, hpr, hrun, hlt⟩ := ih (scratch ++ bs) h
        refine ⟨.produce bs :: p, bs', r, s, by rw [hpr]; rfl, ?_, hlt⟩
        simp only [runInflate]
        rw [if_neg hcap]
        exact hrun
    | needDict ok =>
      cases ok with
      | true =>
        simp only [runInflate] at h
        obtain ⟨p, bs', r, s, hpr, hrun, hlt⟩ := ih scratch h
        refine ⟨.needDict true :: p, bs', r, s, by rw [hpr]; rfl, ?_, hlt⟩
        simp only [runInflate]
        exact hrun
      | false =>
        simp [runInflate] at h
    | fail =>
      simp [runInflate] at h

theorem runInflate_HTL_iff (cap : Nat) (events : List InflateEvent) :
    runInflate cap [] events = .err .HEADERS_TOO_LARGE
      ↔ ∃ p bs r s, events = p ++ .produce bs :: r
          ∧ runInflate cap [] p = .ok s ∧ cap < s.length + bs.length := by
  constructor
  · exact runInflate_HTL_mp cap events []
  · rintro ⟨p, bs, r, s, hpr, hrun, hlt⟩
    rw [hpr]
    exact runInflate_HTL_mpr cap p [] bs r s hrun hlt

/-! ### The size estimate bounds the serialized image -/

theorem length_spliceAt (l : Bytes) (i : Nat) (seg : Bytes) :
    (spliceAt l i seg).length
      = min i l.length + seg.length + (l.length - (i + seg.length)) := by
  simp [spliceAt]
  omega

theorem encStep_length (w : Nat) (hw : 1 ≤ w) (st : EncState) (h : Header) :
    (encStep w st h).buf.length
      ≤ st.buf.length + (w + h.name.length + (w + h.value.length)) := by
  unfold encStep
  split
  · simp [length_beBytes, length_lowerBytes]
    omega
  · simp only [length_spliceAt, List.length_append, List.length_cons,
      length_beBytes]
    rw [Nat.min_def]
    split <;> omega

theorem encFold_length (w : Nat) (hw : 1 ≤ w) (hs : List Header) :
    ∀ st : EncState, (hs.foldl (encStep w) st).buf.length
      ≤ st.buf.length
          + (hs.map (fun h => w + h.name.length + (w + h.value.length))).sum := by
  induction hs with
  | nil =>
    intro st
    simp
  | cons h t ih =>
    intro st
    have h1 := encStep_length w hw st h
    have h2 := ih (encStep w st h)
    simp only [List.foldl_cons, List.map_cons, List.sum_cons]
    omega

/-! ### Parsing a single-header block -/

/-- A decompressed block declaring one header: count 1, then the name and
value with their width-`w` length fields. -/
def blockOne (w : Nat) (nm v : Bytes) : Bytes :=
  beBytes w 1 ++ (beBytes w nm.length ++ (nm ++ (beBytes w v.length ++ v)))

theorem parseLoop_name_invalid (w k : Nat) (nm rest : Bytes)
    (acc : List HeaderPiece) (exp : Nat)
    (hlen : nm.length < 256 ^ w) (hne : nm ≠ [])
    (hvalid : nm.any badNameByte = true) :
    parseLoop w (k + 1) (beBytes w nm.length ++ (nm ++ rest)) none acc exp
      = .err .INVALID_HEADER_VALUE := by
  have hread := readBE_beBytes w nm.length (nm ++ rest)
  have hmod : nm.length % 256 ^ w = nm.length := Nat.mod_eq_of_lt hlen
  rw [hmod] at hread
  have hnz : nm.length ≠ 0 := by
    intro hcontra
    exact hne (List.eq_nil_of_length_eq_zero hcontra)
  have hfit : ¬((nm ++ rest).length < nm.length) := by
    simp only [List.length_append]
    omega
  have htake : (nm ++ rest).take nm.length = nm := List.take_left' rfl
  simp [parseLoop, hread, hnz, hfit, htake, hvalid]

theorem parse_blockOne (w : Nat) (hw : 0 < w) (nm v : Bytes)
    (hnm : nm ≠ []) (h1 : nm.length < 256 ^ w) (h2 : v.length < 256 ^ w) :
    parseNameValues w (blockOne w nm v)
      = if nm.any badNameByte then .err .INVALID_HEADER_VALUE
        else match processValue nm v with
          | Sum.inl e => .err e
          | Sum.inr (ps, e') => .ok (⟨nm, false, false⟩ :: ps) e' := by
  have hone : (1 : Nat) < 256 ^ w := by
    calc (1 : Nat) < 256 := by omega
    _ ≤ 256 ^ w := Nat.le_self_pow (by omega) 256
  unfold parseNameValues blockOne
  rw [readBE_beBytes, Nat.mod_eq_of_lt hone]
  dsimp only
  have hb : (1 * 2) % 2 ^ 32 = 1 + 1 := by decide
  rw [hb]
  by_cases hbad : nm.any badNameByte
  · rw [parseLoop_name_invalid w 1 nm (beBytes w v.length ++ v) [] 0 h1 hnm hbad]
    rw [if_pos hbad]
  · rw [parseLoop_name_step w 1 nm (beBytes w v.length ++ v) [] 0 h1 hnm
      (by simpa using hbad)]
    rw [if_neg hbad]
    have hv : beBytes w v.length ++ v = beBytes w v.length ++ (v ++ []) := by
      simp
    rw [hv]
    cases hp : processValue nm v with
    | inl e =>
      rw [parseLoop_value_err w 0 nm v [] _ _ e h2 hp]
    | inr pe =>
      rw [parseLoop_value_ok w 0 nm v [] _ _ pe.1 pe.2 h2 (by rw [hp])]
      simp [parseLoop]

/-- Rewriting lowercased names to themselves inside the flattened pair list. -/
theorem flatMap_entry_names (es : List WireEntry)
    (h : ∀ e ∈ es, lowerBytes e.name = e.name) :
    es.flatMap (fun e => e.values.map fun v => (lowerBytes e.name, v))
      = es.flatMap (fun e => e.values.map fun v => (e.name, v)) := by
  induction es with
  | nil => rfl
  | cons e es ih =>
    simp only [List.flatMap_cons]
    rw [h e (by simp), ih (fun x hx => h x (List.mem_cons_of_mem e hx))]

/-- processValue errors exactly when the value has a NUL and an empty
NUL-separated segment. -/
theorem processValue_inl_iff (nm v : Bytes) :
    (∃ e, processValue nm v = Sum.inl e) ↔ (0 ∈ v ∧ ∃ s ∈ splitNul v, s = []) := by
  unfold processValue
  by_cases h0 : 0 ∈ v
  · rw [if_pos h0]
    by_cases hemp : (splitNul v).any List.isEmpty
    · rw [if_pos hemp]
      constructor
      · intro _
        obtain ⟨s, hs, hse⟩ := List.any_eq_true.mp hemp
        exact ⟨h0, s, hs, List.isEmpty_iff.mp hse⟩
      · intro _
        exact ⟨.EMPTY_HEADER_VALUE, rfl⟩
    · rw [if_neg hemp]
      cases hsp : splitNul v with
      | nil => exact absurd hsp (splitNul_ne_nil v)
      | cons s rest =>
        constructor
        · rintro ⟨e, he⟩
          exact absurd he (by simp)
        · rintro ⟨_, s', hs', hse⟩
          rw [hsp] at hemp
          exact absurd (List.any_eq_true.mpr
            ⟨s', hsp ▸ hs', List.isEmpty_iff.mpr hse⟩) (hsp ▸ hemp)
  · rw [if_neg h0]
    constructor
    · rintro ⟨e, he⟩
      exact absurd he (by simp)
    · rintro ⟨h0', _⟩
      exact absurd h0' h0

/-! ## Claim theorems -/

/-- C2 (counterexample): encoding `("x","a")`, `("x","b")` produces the single
wire entry `"x" → "a\x00b"` and decoding yields the two pairs — but NOT every
resulting piece is flagged multi-valued: the first name and value pieces carry
`multiValued = false`, refuting the claim at this concrete input. -/
theorem c2_counterexample :
    serializeHeaders 2 [⟨1, [120], [97]⟩, ⟨1, [120], [98]⟩]
        = [0, 1, 0, 1, 120, 0, 3, 97, 0, 98]
      ∧ parseNameValues 2 [0, 1, 0, 1, 120, 0, 3, 97, 0, 98]
        = .ok [⟨[120], false, false⟩, ⟨[97], false, false⟩,
            ⟨[120], false, true⟩, ⟨[98], false, true⟩] 2
      ∧ ¬(∀ p ∈ [⟨[120], false, false⟩, (⟨[97], false, false⟩ : HeaderPiece),
            ⟨[120], false, true⟩, ⟨[98], false, true⟩], p.multiValued = true) := by
  decide

/-- C2 (amended): encoding the two input pairs `("x","a")` and `("x","b")`
produces a single wire entry with name `"x"` and value `"a\x00b"`, and decoding
that entry yields the two pairs `("x","a")` and `("x","b")` where the pieces of
the appended second pair are flagged multi-valued while the in-place first
name and value pieces are not. -/
theorem merge_split_c2_amended :
    serializeHeaders 2 [⟨1, [120], [97]⟩, ⟨1, [120], [98]⟩]
        = [0, 1, 0, 1, 120, 0, 3, 97, 0, 98]
      ∧ parseNameValues 2 (serializeHeaders 2 [⟨1, [120], [97]⟩, ⟨1, [120], [98]⟩])
        = .ok [⟨[120], false, false⟩, ⟨[97], false, false⟩,
            ⟨[120], false, true⟩, ⟨[98], false, true⟩] 2
      ∧ piecePairs [⟨[120], false, false⟩, ⟨[97], false, false⟩,
            ⟨[120], false, true⟩, ⟨[98], false, true⟩]
        = [([120], [97]), ([120], [98])]
      ∧ sortSpec [⟨1, [120], [97]⟩, ⟨1, [120], [98]⟩]
          [⟨1, [120], [97]⟩, ⟨1, [120], [98]⟩] := by
  decide

/-- C4 (counterexample): a block whose single header has name `"a"` and a
wholly empty value (no NUL byte) parses successfully — decode does NOT return
EmptyHeaderValue, refuting the claim's "whole value is empty" case. -/
theorem c4_counterexample :
    parseNameValues 2 [0, 1, 0, 1, 97, 0, 0]
        = .ok [⟨[97], false, false⟩, ⟨[], false, false⟩] 0
      ∧ parseNameValues 2 [0, 1, 0, 1, 97, 0, 0]
        ≠ .err .EMPTY_HEADER_VALUE := by
  decide

/-- C4 (amended): for a single-header block with a tame name, the parser
returns EmptyHeaderValue exactly when the value contains at least one NUL byte
and some NUL-separated segment is empty; a wholly empty value without any NUL
is accepted. -/
theorem empty_value_c4_amended (w : Nat) (nm v : Bytes) (hw : 0 < w)
    (hnm : nm ≠ []) (h1 : nm.length < 256 ^ w) (h2 : v.length < 256 ^ w)
    (hvalid : nm.any badNameByte = false) :
    parseNameValues w (blockOne w nm v) = .err .EMPTY_HEADER_VALUE
      ↔ (0 ∈ v ∧ ∃ s ∈ splitNul v, s = []) := by
  rw [parse_blockOne w hw nm v hnm h1 h2]
  rw [if_neg (by simp [hvalid])]
  cases hp : processValue nm v with
  | inl e =>
    have he : e = .EMPTY_HEADER_VALUE := processValue_err nm v e hp
    subst he
    simp only [ParseOut.err.injEq, true_iff, iff_true]
    exact (processValue_inl_iff nm v).mp ⟨_, hp⟩
  | inr pe =>
    constructor
    · intro h
      exact absurd h (by simp)
    · intro h
      have := (processValue_inl_iff nm v).mpr h
      obtain ⟨e, he⟩ := this
      rw [hp] at he
      exact absurd he (by simp)

/-- C5: for a single-header block, the parser returns InvalidHeaderValue
exactly when some byte of the name is outside `[0x20, 0x7E]` or is an
uppercase ASCII letter; a name whose every byte is in range and not uppercase
passes validation (the value never triggers this error). -/
theorem name_validation_c5 (w : Nat) (nm v : Bytes) (hw : 0 < w)
    (hnm : nm ≠ []) (h1 : nm.length < 256 ^ w) (h2 : v.length < 256 ^ w)
    (hbytes : ∀ b ∈ nm, b < 256) :
    parseNameValues w (blockOne w nm v) = .err .INVALID_HEADER_VALUE
      ↔ ∃ b ∈ nm, b < 32 ∨ 126 < b ∨ (65 ≤ b ∧ b ≤ 90) := by
  rw [parse_blockOne w hw nm v hnm h1 h2]
  by_cases hbad : nm.any badNameByte
  · rw [if_pos hbad]
    simp only [true_iff, iff_true]
    obtain ⟨b, hb, hbb⟩ := List.any_eq_true.mp hbad
    exact ⟨b, hb, (badNameByte_iff b (hbytes b hb)).mp hbb⟩
  · rw [if_neg hbad]
    constructor
    · intro h
      cases hp : processValue nm v with
      | inl e =>
        rw [hp] at h
        have he : e = .EMPTY_HEADER_VALUE := processValue_err nm v e hp
        subst he
        exact absurd h (by simp)
      | inr pe =>
        rw [hp] at h
        exact absurd h (by simp)
    · rintro ⟨b, hb, hbb⟩
      have : badNameByte b = true := (badNameByte_iff b (hbytes b hb)).mpr hbb
      exact absurd (List.any_eq_true.mpr ⟨b, hb, this⟩) hbad

/-- C5 witness: the name `"A"` (an uppercase byte) is rejected with
InvalidHeaderValue. -/
theorem c5_witness :
    parseNameValues 2 (blockOne 2 [65] [97]) = .err .INVALID_HEADER_VALUE
      ↔ ∃ b ∈ [65], b < 32 ∨ 126 < b ∨ (65 ≤ b ∧ b ≤ 90) :=
  name_validation_c5 2 [65] [97] (by decide) (by decide) (by decide) (by decide)
    (by decide)

/-- C4 witness: the value `"a\x00"` (trailing NUL, empty last segment) is
rejected with EmptyHeaderValue. -/
theorem c4_witness :
    parseNameValues 2 (blockOne 2 [97] [97, 0]) = .err .EMPTY_HEADER_VALUE
      ↔ (0 ∈ [97, 0] ∧ ∃ s ∈ splitNul [97, 0], s = []) :=
  empty_value_c4_amended 2 [97] [97, 0] (by decide) (by decide) (by decide)
    (by decide) (by decide)

/-- C10: the parser's loop bound `numNV * 2` is computed in 32-bit unsigned
arithmetic; a 4-byte block declaring `N = 2^31` unique names with no further
payload decodes successfully with zero pieces, and a decode of that block
returns an empty success. -/
theorem loop_bound_wrap_c10 :
    parseNameValues 4 [128, 0, 0, 0] = .ok [] 0
      ∧ decode 4 100 1 [.produce [128, 0, 0, 0]] = (.ok [], true) := by
  decide

/-- C3: for a nonempty block, decode returns HeadersTooLarge exactly when
either the accumulated decompressed length exceeds the configured maximum at
some inflate step (checked before consuming further input), or the expanded
multi-value name+segment total of a successfully parsed image exceeds the
fixed 80 KiB ceiling. -/
theorem headers_too_large_c3 (w cap len : Nat) (events : List InflateEvent)
    (hlen : 0 < len) :
    (decode w cap len events).fst = .err .HEADERS_TOO_LARGE
      ↔ ((∃ p bs r s, events = p ++ .produce bs :: r
            ∧ runInflate cap [] p = .ok s ∧ cap < s.length + bs.length)
        ∨ (∃ s pieces expanded, runInflate cap [] events = .ok s
            ∧ parseNameValues w s = .ok pieces expanded
            ∧ kMaxExpandedHeaderLineBytes < expanded)) := by
  unfold decode
  rw [if_neg (by omega)]
  cases hr : runInflate cap [] events with
  | err e =>
    dsimp only
    constructor
    · intro h
      have he : e = .HEADERS_TOO_LARGE := by
        simpa using h
      subst he
      exact Or.inl ((runInflate_HTL_iff cap events).mp hr)
    · rintro (h1 | ⟨s, _, _, hok, _⟩)
      · have hh := (runInflate_HTL_iff cap events).mpr h1
        rw [hr] at hh
        simp only [InflRes.err.injEq] at hh
        rw [hh]
      · exact absurd hok (by simp)
  | ok s =>
    dsimp only
    cases hp : parseNameValues w s with
    | outOfRange =>
      dsimp only
      constructor
      · intro h
        exact absurd h (by simp)
      · rintro (h1 | ⟨s', p', e', hok, hpar, _⟩)
        · have hh := (runInflate_HTL_iff cap events).mpr h1
          rw [hr] at hh
          exact absurd hh (by simp)
        · simp only [InflRes.ok.injEq] at hok
          subst hok
          rw [hp] at hpar
          exact absurd hpar (by simp)
    | err e =>
      dsimp only
      have hne : e ≠ .HEADERS_TOO_LARGE := by
        rcases parseNameValues_err w s e hp with h1 | h1 | h1 <;> simp [h1]
      constructor
      · intro h
        have he : e = .HEADERS_TOO_LARGE := by simpa using h
        exact absurd he hne
      · rintro (h1 | ⟨s', p', e', hok, hpar, _⟩)
        · have hh := (runInflate_HTL_iff cap events).mpr h1
          rw [hr] at hh
          exact absurd hh (by simp)
        · simp only [InflRes.ok.injEq] at hok
          subst hok
          rw [hp] at hpar
          exact absurd hpar (by simp)
    | ok pieces expanded =>
      dsimp only
      by_cases hgt : kMaxExpandedHeaderLineBytes < expanded
      · rw [if_pos hgt]
        constructor
        · intro _
          exact Or.inr ⟨s, pieces, expanded, rfl, hp, hgt⟩
        · intro _
          rfl
      · rw [if_neg hgt]
        constructor
        · intro h
          exact absurd h (by simp)
        · rintro (h1 | ⟨s', p', e', hok, hpar, hgt'⟩)
          · have hh := (runInflate_HTL_iff cap events).mpr h1
            rw [hr] at hh
            exact absurd hh (by simp)
          · simp only [InflRes.ok.injEq] at hok
            subst hok
            rw [hp] at hpar
            simp only [ParseOut.ok.injEq] at hpar
            obtain ⟨hp1, hp2⟩ := hpar
            subst hp2
            exact absurd hgt' hgt

/-- C3 witness: with cap 0, an inflate step producing one byte triggers
HeadersTooLarge. -/
theorem c3_witness :
    (decode 2 0 1 [.produce [1]]).fst = .err .HEADERS_TOO_LARGE
      ↔ ((∃ p bs r s, [InflateEvent.produce [1]] = p ++ .produce bs :: r
            ∧ runInflate 0 [] p = .ok s ∧ 0 < s.length + bs.length)
        ∨ (∃ s pieces expanded, runInflate 0 [] [InflateEvent.produce [1]] = .ok s
            ∧ parseNameValues 2 s = .ok pieces expanded
            ∧ kMaxExpandedHeaderLineBytes < expanded)) :=
  headers_too_large_c3 2 0 1 [.produce [1]] (by decide)

/-- C8 (counterexample): a decode whose decompression succeeds but whose
parse fails (an empty header name here) returns an error AND has already
invoked the stats sink's recordDecode — refuting "recordDecode is invoked iff
the call returns a successful result". -/
theorem c8_counterexample :
    decode 2 100 1 [.produce [0, 1, 0, 0]] = (.err .EMPTY_HEADER_NAME, true)
      ∧ decode 2 100 0 [] = (.ok [], false) := by
  decide

/-- C8 (amended): recordDecode is invoked exactly when the block is nonempty
and the decompression loop succeeds — regardless of whether the subsequent
parse or the expanded-size check fails; the empty-block success path never
records. -/
theorem stats_record_c8_amended (w cap len : Nat) (events : List InflateEvent) :
    (decode w cap len events).snd = true
      ↔ (len ≠ 0 ∧ ∃ s, runInflate cap [] events = .ok s) := by
  unfold decode
  by_cases hl : len = 0
  · rw [if_pos hl]
    simp [hl]
  · rw [if_neg hl]
    cases hr : runInflate cap [] events with
    | err e =>
      dsimp only
      constructor
      · intro h
        exact absurd h (by simp)
      · rintro ⟨_, s, hok⟩
        exact absurd hok (by simp)
    | ok s =>
      dsimp only
      cases hp : parseNameValues w s with
      | outOfRange =>
        dsimp only
        exact ⟨fun _ => ⟨hl, s, rfl⟩, fun _ => rfl⟩
      | err e =>
        dsimp only
        exact ⟨fun _ => ⟨hl, s, rfl⟩, fun _ => rfl⟩
      | ok pieces expanded =>
        dsimp only
        by_cases hgt : kMaxExpandedHeaderLineBytes < expanded
        · rw [if_pos hgt]
          exact ⟨fun _ => ⟨hl, s, rfl⟩, fun _ => rfl⟩
        · rw [if_neg hgt]
          exact ⟨fun _ => ⟨hl, s, rfl⟩, fun _ => rfl⟩

/-- C6 (counterexample): for the key (any version, level = Z_NO_COMPRESSION),
the first obtain call builds the template with window bits 8 but does NOT
install the version's (nonempty) preload dictionary — refuting the claim that
the dictionary is installed for every key. -/
theorem c6_counterexample :
    (getZlibContext (fun _ => [1, 2, 3]) [] 2 Z_NO_COMPRESSION).fst.dictionary
        = none
      ∧ (getZlibContext (fun _ => [1, 2, 3]) [] 2 Z_NO_COMPRESSION).fst.windowBits
        = 8
      ∧ ([1, 2, 3] : Bytes) ≠ [] := by
  decide

/-- C6 (amended): on the first obtain call for a key, the template's deflate
stream is built with window bits 8 when the level is Z_NO_COMPRESSION and 11
otherwise, memory level 1, default strategy — and the version's preload
dictionary is installed exactly when the level is NOT Z_NO_COMPRESSION; the
result is cached, and a second obtain for the same key returns it. -/
theorem template_construction_c6_amended (dictOf : Nat → Bytes)
    (cache : ZlibCache) (version : Nat) (level : Int)
    (hmiss : cache.lookup (version, level) = none) :
    (getZlibContext dictOf cache version level).fst
        = { windowBits := if level = Z_NO_COMPRESSION then 8 else 11,
            memLevel := 1, strategy := Z_DEFAULT_STRATEGY,
            dictionary := if level ≠ Z_NO_COMPRESSION then some (dictOf version)
              else none }
      ∧ (getZlibContext dictOf
            (getZlibContext dictOf cache version level).snd version level).fst
        = (getZlibContext dictOf cache version level).fst := by
  unfold getZlibContext
  rw [hmiss]
  refine ⟨rfl, ?_⟩
  simp [List.lookup]

/-- C6 witness: first obtain at level 9 builds window bits 11 and installs the
dictionary. -/
theorem c6_witness :
    (getZlibContext (fun _ => [1]) [] 3 9).fst
        = { windowBits := 11, memLevel := 1, strategy := 0,
            dictionary := some [1] }
      ∧ (getZlibContext (fun _ => [1])
            (getZlibContext (fun _ => [1]) [] 3 9).snd 3 9).fst
        = (getZlibContext (fun _ => [1]) [] 3 9).fst := by
  have h := template_construction_c6_amended (fun _ => [1]) [] 3 9 (by decide)
  exact ⟨by rw [h.1]; decide, h.2⟩

/-- C7: the length of the serialized uncompressed image is at most
`W + Σ (W + |name| + W + |value|)` over the input pairs, for any header list
and any width `W ≥ 1`, so the reserved scratch always suffices and encode
never fails for size reasons. -/
theorem encode_estimate_c7 (w : Nat) (hw : 1 ≤ w) (hs : List Header) :
    (serializeHeaders w hs).length
      ≤ w + (hs.map (fun h => w + h.name.length + (w + h.value.length))).sum := by
  unfold serializeHeaders
  have hb := encFold_length w hw hs encInit
  simp only [encInit] at hb
  simp only [List.length_append, length_beBytes]
  simpa using hb

/-- C7 witness: the bound at a concrete duplicate-name list. -/
theorem c7_witness :
    (serializeHeaders 2 [⟨1, [120], [97]⟩, ⟨1, [120], [98]⟩]).length
      ≤ 2 + (([⟨1, [120], [97]⟩, ⟨1, [120], [98]⟩] : List Header).map
          (fun h => 2 + h.name.length + (2 + h.value.length))).sum :=
  encode_estimate_c7 2 (by decide) [⟨1, [120], [97]⟩, ⟨1, [120], [98]⟩]

/-- C9: encode's std::sort leaves the caller's list as a permutation of its
input sorted by (classification code, name); the sort is not stable — for a
concrete input with two equal-(code, name) entries, both relative orders are
legal outcomes. -/
theorem sort_mutation_c9 (H hs : List Header) (h : sortSpec H hs) :
    hs.Perm H ∧ hs.Pairwise (fun a b => headerLtB b a = false)
      ∧ ∃ l₁ l₂ : List Header, l₁ ≠ l₂
          ∧ sortSpec [⟨1, [120], [98]⟩, ⟨1, [120], [97]⟩] l₁
          ∧ sortSpec [⟨1, [120], [98]⟩, ⟨1, [120], [97]⟩] l₂ := by
  refine ⟨h.1, h.2, [⟨1, [120], [98]⟩, ⟨1, [120], [97]⟩],
    [⟨1, [120], [97]⟩, ⟨1, [120], [98]⟩], by decide, by decide, by decide⟩

/-- C9 witness at a concrete sorted permutation. -/
theorem c9_witness :
    ([⟨1, [120], [97]⟩] : List Header).Perm [⟨1, [120], [97]⟩]
      ∧ ([⟨1, [120], [97]⟩] : List Header).Pairwise
          (fun a b => headerLtB b a = false)
      ∧ ∃ l₁ l₂ : List Header, l₁ ≠ l₂
          ∧ sortSpec [⟨1, [120], [98]⟩, ⟨1, [120], [97]⟩] l₁
          ∧ sortSpec [⟨1, [120], [98]⟩, ⟨1, [120], [97]⟩] l₂ :=
  sort_mutation_c9 [⟨1, [120], [97]⟩] [⟨1, [120], [97]⟩] (by decide)

/-- C1 (counterexample): for the input `[("x","b"), ("x","a")]`, the sorted
permutation `[("x","a"), ("x","b")]` is a legal outcome of encode's non-stable
std::sort, and decoding its encoding yields the duplicate values in the order
`a, b` — not the caller's order `b, a` — refuting "preserving the relative
order of the duplicate values as given by the caller". -/
theorem c1_counterexample :
    sortSpec [⟨1, [120], [98]⟩, ⟨1, [120], [97]⟩]
        [⟨1, [120], [97]⟩, ⟨1, [120], [98]⟩]
      ∧ parseNameValues 2 (serializeHeaders 2
            [⟨1, [120], [97]⟩, ⟨1, [120], [98]⟩])
        = .ok [⟨[120], false, false⟩, ⟨[97], false, false⟩,
            ⟨[120], false, true⟩, ⟨[98], false, true⟩] 2
      ∧ piecePairs [⟨[120], false, false⟩, ⟨[97], false, false⟩,
            ⟨[120], false, true⟩, ⟨[98], false, true⟩]
        ≠ [([120], [98]), ([120], [97])] := by
  decide

/-- C1 (amended): for every header list `H` with nonempty printable-lowercase
names and nonempty NUL-free values, and every sorted permutation `hs` the
non-stable std::sort may produce (with the length fields fitting the width and
the unique-name count below `2^31`), decoding the encoding yields exactly the
merged-then-re-expanded pairs of `hs` in `hs` order; the resulting (name,
value) pair list is `hs` itself, a permutation of `H` — duplicate values
appear in the sorted list's order, which is the caller's order only when the
sort happens to be stable on equal keys. -/
theorem roundtrip_c1_amended (w : Nat) (H hs : List Header)
    (hsort : sortSpec H hs)
    (hname : ∀ h ∈ H, h.name ≠ []
      ∧ ∀ b ∈ h.name, 32 ≤ b ∧ b ≤ 126 ∧ ¬(65 ≤ b ∧ b ≤ 90))
    (hval : ∀ h ∈ H, h.value ≠ [] ∧ 0 ∉ h.value)
    (hcount : (mergeAdj hs).length < 256 ^ w)
    (hwrap : 2 * (mergeAdj hs).length < 2 ^ 32)
    (hlens : ∀ e ∈ mergeAdj hs,
      e.name.length < 256 ^ w ∧ (joinVals e.values).length < 256 ^ w) :
    parseNameValues w (serializeHeaders w hs)
        = .ok (wireExpand (mergeAdj hs)) (expandedSum (mergeAdj hs))
      ∧ piecePairs (wireExpand (mergeAdj hs))
        = hs.map (fun h => (h.name, h.value))
      ∧ (hs.map (fun h => (h.name, h.value))).Perm
          (H.map (fun h => (h.name, h.value))) := by
  have hmem : ∀ h : Header, h ∈ hs → h ∈ H := fun h hh => hsort.1.mem_iff.mp hh
  have hname' : ∀ h ∈ hs, h.name ≠ []
      ∧ ∀ b ∈ h.name, 32 ≤ b ∧ b ≤ 126 ∧ ¬(65 ≤ b ∧ b ≤ 90) :=
    fun h hh => hname h (hmem h hh)
  have hval' : ∀ h ∈ hs, h.value ≠ [] ∧ 0 ∉ h.value :=
    fun h hh => hval h (hmem h hh)
  have hnames : ∀ h ∈ hs, h.name ≠ [] := fun h hh => (hname' h hh).1
  -- every wire entry is well formed, and its name is already lowercase
  have hlower : ∀ e ∈ mergeAdj hs, lowerBytes e.name = e.name := by
    intro e he
    obtain ⟨⟨h, hh, hn⟩, _, _⟩ := mergeAdj_sound hs e he
    exact lowerBytes_eq_self e.name
      (hn ▸ fun b hb => ((hname' h hh).2 b hb).2.2)
  have hwf : ∀ e ∈ mergeAdj hs, WF w e := by
    intro e he
    obtain ⟨⟨h, hh, hn⟩, hvne, hvsrc⟩ := mergeAdj_sound hs e he
    have hnn : e.name ≠ [] := hn ▸ (hname' h hh).1
    have hbytes : ∀ b ∈ e.name, 32 ≤ b ∧ b ≤ 126 ∧ ¬(65 ≤ b ∧ b ≤ 90) :=
      hn ▸ (hname' h hh).2
    refine ⟨hnn, ?_, (hlens e he).1, (hlens e he).2, hvne, ?_⟩
    · rw [hlower e he]
      simp only [List.any_eq_false]
      intro b hb
      simp [badNameByte_eq_false b (hbytes b hb).1 (hbytes b hb).2.1
        (hbytes b hb).2.2]
    · intro v hv
      obtain ⟨x, hx, hxv⟩ := hvsrc v hv
      exact hxv ▸ hval' x hx
  have hser := serialize_entries w hs hnames
  have hparse := parse_of_entries w (mergeAdj hs) hcount hwrap hwf
  refine ⟨by rw [hser]; exact hparse, ?_, hsort.1.map _⟩
  rw [piecePairs_wireExpand (mergeAdj hs) (fun e he => (mergeAdj_sound hs e he).2.1)]
  rw [flatMap_entry_names (mergeAdj hs) hlower]
  exact mergeAdj_flatten hs

/-- C1 witness: the round trip at a concrete single-header list. -/
theorem c1_witness :
    parseNameValues 2 (serializeHeaders 2 [⟨1, [120], [97]⟩])
        = .ok (wireExpand (mergeAdj [⟨1, [120], [97]⟩]))
            (expandedSum (mergeAdj [⟨1, [120], [97]⟩]))
      ∧ piecePairs (wireExpand (mergeAdj [⟨1, [120], [97]⟩]))
        = ([⟨1, [120], [97]⟩] : List Header).map (fun h => (h.name, h.value))
      ∧ (([⟨1, [120], [97]⟩] : List Header).map
            (fun h => (h.name, h.value))).Perm
          (([⟨1, [120], [97]⟩] : List Header).map (fun h => (h.name, h.value))) :=
  roundtrip_c1_amended 2 [⟨1, [120], [97]⟩] [⟨1, [120], [97]⟩]
    (by decide) (by decide) (by decide) (by decide) (by decide) (by decide)

end GzipCodec
